import Mathlib

/-!
Verification of the template tree engine (`Node` type and its structural
operations) of the harvest repository.

Two embeddings are used, both translated from the Go source:

* a pure inductive tree `Node` for the operations that never consult the
  mutable `parent` back-reference (`GetContent`, `GetChild`, `PopChild`,
  `Union`, `FlatList`, `SearchChildren`, ...);
* an explicit heap (`Heap` = list of `NodeData`, node ids are list indices)
  for the operations whose behaviour depends on parent pointers or on
  aliasing (`Merge`, `PreprocessTemplate`, `searchAncestor`, `Copy`).

Go `[]byte` and `string` values are both modelled as `String` (the source
maintains byte/string pairs of every accessor with identical behaviour).
Go slices are modelled as lists; `nil` pointers as `Option`; a Go panic as
an `Option`-valued result `none`.  Recursive heap operations take an
explicit fuel argument because an arbitrary heap can contain cycles.
-/

namespace Harvest

/-- Go `bytes.TrimSpace`: drop leading and trailing whitespace (structural
recursion over the character list, so that concrete inputs evaluate). -/
def trimStr (s : String) : String :=
  String.mk (((s.toList.dropWhile Char.isWhitespace).reverse.dropWhile
    Char.isWhitespace).reverse)

/-- Effective content, shared by the pure and the heap model: the Go code of
`GetContent` trims the raw payload and masks it to empty when the trimmed
payload begins with the `<` marker. -/
def effContent (s : String) : String :=
  let content := trimStr s
  if content.length ≠ 0 then
    if content.front ≠ '<' then content else ""
  else ""

/-- First word of `s`: drop everything before the first word character
(letter, digit, underscore or hyphen), then take the maximal run of word
characters — the Go `simpleName` regexp `(\w|-)+`. -/
def isWordChar (ch : Char) : Bool :=
  ch.isAlphanum || ch = '_' || ch = '-'

/-- Go `simpleName`: first match of the regexp `(\w|-)+` in `s`. -/
def simpleName (s : String) : String :=
  String.mk ((s.toList.dropWhile (fun ch => ¬ isWordChar ch)).takeWhile isWordChar)

/-- Modelled from the spec: `util.Contains` (package `pkg/util`, not under
`src/`) decides whether a string is in the caller-supplied list —
"determine whether `mine`'s parent's name is in the caller-supplied
skip-overwrite set". -/
def Contains (list : List String) (s : String) : Bool :=
  list.contains s

/-- A pure tree vertex: plain name, markup-qualified name (`XMLName.Local`),
raw content, attributes, ordered children.  The mutable `parent`
back-reference is not representable here; the heap model below carries it. -/
inductive Node where
  | mk (name : String) (xmlName : String) (content : String)
       (attrs : List (String × String)) (children : List Node)
deriving Repr

def Node.name : Node → String
  | .mk nm _ _ _ _ => nm

def Node.XMLName : Node → String
  | .mk _ x _ _ _ => x

def Node.Content : Node → String
  | .mk _ _ ct _ _ => ct

def Node.Attrs : Node → List (String × String)
  | .mk _ _ _ at_ _ => at_

def Node.Children : Node → List Node
  | .mk _ _ _ _ cs => cs

mutual
/-- Structural boolean equality of nodes (for decidable equality). -/
def Node.beq : Node → Node → Bool
  | .mk a b c d e, .mk a' b' c' d' e' =>
    (a == a') && (b == b') && (c == c') && (d == d') && beqKids e e'

/-- Structural boolean equality of child lists. -/
def beqKids : List Node → List Node → Bool
  | [], [] => true
  | x :: xs, y :: ys => Node.beq x y && beqKids xs ys
  | [], _ :: _ => false
  | _ :: _, [] => false
end

mutual
/-- `Node.beq` reflects propositional equality (proof term used by the
decidable-equality instance). -/
def Node.beq_iff : ∀ a b : Node, Node.beq a b = true ↔ a = b
  | .mk a b c d e, .mk a' b' c' d' e' => by
    simp only [Node.beq, Bool.and_eq_true, beq_iff_eq, beqKids_iff e e', Node.mk.injEq]
    tauto

/-- `beqKids` reflects propositional equality of child lists. -/
def beqKids_iff : ∀ xs ys : List Node, beqKids xs ys = true ↔ xs = ys
  | [], [] => by simp [beqKids]
  | [], _ :: _ => by simp [beqKids]
  | _ :: _, [] => by simp [beqKids]
  | x :: xs, y :: ys => by
    simp [beqKids, Node.beq_iff x y, beqKids_iff xs ys]
end

instance : DecidableEq Node := fun a b => decidable_of_iff _ (Node.beq_iff a b)

/-- Go `GetNameS`/`GetName`: the qualified name wins when set. -/
def Node.GetNameS (n : Node) : String :=
  if n.XMLName ≠ "" then n.XMLName else n.name

/-- Go `GetContent`: trimmed content, empty when it begins with `<`. -/
def Node.GetContent (n : Node) : String :=
  effContent n.Content

/-- Go `GetContentS`: the raw content, untrimmed and unmasked. -/
def Node.GetContentS (n : Node) : String :=
  n.Content

/-- Go `GetChild`/`GetChildS`: first child whose name matches. -/
def Node.GetChildS (n : Node) (nm : String) : Option Node :=
  n.Children.find? (fun c => c.GetNameS = nm)

/-- Go `HasChild`/`HasChildS`. -/
def Node.HasChildS (n : Node) (nm : String) : Bool :=
  (n.GetChildS nm).isSome

/-- Go `GetChildContent`: effective content of the first matching child. -/
def Node.GetChildContent (n : Node) (nm : String) : String :=
  match n.GetChildS nm with
  | some child => child.GetContent
  | none => ""

/-- Go `GetChildContentS`: raw content of the first matching child. -/
def Node.GetChildContentS (n : Node) (nm : String) : String :=
  match n.GetChildS nm with
  | some child => child.GetContentS
  | none => ""

/-- Go `PopChild`: find the first child with a matching name, move the last
element of the child list into its slot, truncate the list by one, and
return the removed child; `none` and the unchanged node when no child
matches. -/
def Node.PopChild (n : Node) (nm : String) : Option Node × Node :=
  match n.Children.findIdx? (fun c => c.GetNameS = nm) with
  | none => (none, n)
  | some i =>
    (n.Children.get? i,
     .mk n.name n.XMLName n.Content n.Attrs
       ((n.Children.set i (n.Children.getLastD n)).dropLast))

/-- Go `SetContent`/`SetContentS` (pure: the node with updated content). -/
def Node.SetContent (n : Node) (ct : String) : Node :=
  .mk n.name n.XMLName ct n.Attrs n.Children

/-- Go `AddChild`: append to the child list (does not set a parent link). -/
def Node.AddChild (n : Node) (c : Node) : Node :=
  .mk n.name n.XMLName n.Content n.Attrs (n.Children ++ [c])

/-- Replace the first child whose name matches `nm` by `v` — the pure image
of an in-place mutation of the node returned by Go `GetChild`. -/
def replaceFirstNamed : List Node → String → Node → List Node
  | [], _, _ => []
  | c :: rest, nm, v =>
    if c.GetNameS = nm then v :: rest else c :: replaceFirstNamed rest nm v

/-- Go `NewChild`/`NewChildS`: the child is built with the parent's naming
convention (qualified parent ⇒ qualified child), holds `ct`, and is
appended; returns the child together with the updated parent. -/
def Node.NewChildS (n : Node) (nm ct : String) : Node × Node :=
  let child : Node := if n.XMLName ≠ "" then .mk "" nm ct [] [] else .mk nm "" ct [] []
  (child, n.AddChild child)

/-- Go `SetChildContentS`: overwrite the first matching child's content in
place, or create a new child when none matches. -/
def Node.SetChildContentS (n : Node) (nm ct : String) : Node :=
  match n.GetChildS nm with
  | some child =>
    .mk n.name n.XMLName n.Content n.Attrs
      (replaceFirstNamed n.Children nm (child.SetContent ct))
  | none => (n.NewChildS nm ct).2

mutual
/-- Go `Union`: adopt the source's effective content when the receiver has
none, then fold the source's children: adopt missing children by
reference, recurse when the source child has children, otherwise
overwrite the matching receiver child's content. -/
def Node.Union : Node → Node → Node
  | n, .mk snm sx sct sat scs =>
    let s : Node := .mk snm sx sct sat scs
    let n0 := if n.GetContent.length = 0 then n.SetContent s.GetContent else n
    unionKids n0 scs

/-- The `for _, child := range source.Children` loop body of Go `Union`,
threading the receiver through the iterations. -/
def unionKids : Node → List Node → Node
  | n, [] => n
  | n, c :: rest =>
    unionKids
      (if ¬ n.HasChildS c.GetNameS then n.AddChild c
       else if c.Children ≠ [] then
         match n.GetChildS c.GetNameS with
         | some m =>
           Node.mk n.name n.XMLName n.Content n.Attrs
             (replaceFirstNamed n.Children c.GetNameS (Node.Union m c))
         | none => n
       else n.SetChildContentS c.GetNameS c.GetContentS)
      rest
end

/-- Go `Union` at its pointer signature: a `nil` source (`none`) makes the
body dereference `source` and panic (`none` result); a non-nil source
returns normally with the updated receiver. -/
def Node.UnionPtr (n : Node) (source : Option Node) : Option Node :=
  match source with
  | none => none
  | some s => some (n.Union s)

/-- The prefix extension of an interior node in Go `FlatList`: the node's
name is added unless it is empty or the reserved container name
`"counters"`. -/
def pfxStep (nameS pfx : String) : String :=
  if nameS.length > 0 ∧ nameS ≠ "counters" then
    (if pfx = "" then nameS else pfx ++ " " ++ nameS)
  else pfx

mutual
/-- Go `FlatList`: pre-order flattening; a leaf contributes
`prefix ++ " " ++ simpleName content` (or just the word when the prefix is
empty); an interior node extends the prefix with its name unless the name
is empty or the reserved container name `"counters"`. -/
def Node.FlatList : Node → String → List String
  | .mk nm x ct at_ cs, pfx =>
    if cs = [] then
      [if pfx.length > 0 then pfx ++ " " ++ simpleName ct else simpleName ct]
    else
      flatKids cs (pfxStep (Node.GetNameS (.mk nm x ct at_ cs)) pfx)

/-- The child loop of Go `FlatList`, left to right. -/
def flatKids : List Node → String → List String
  | [], _ => []
  | c :: rest, pfx => Node.FlatList c pfx ++ flatKids rest pfx
end

mutual
/-- The inner `search` closure of Go `SearchChildren`: the running path
gains this node's name once traversal has started or the name equals the
first expected segment; an exact match returns the node and stops
descending; descent continues only below the target path's length. -/
def scN (p0 : String) (path : List String) : Node → List String → List Node
  | .mk nm x ct at_ cs, currentPath =>
    let node : Node := .mk nm x ct at_ cs
    let newPath :=
      if currentPath.length > 0 ∨ node.GetNameS = p0
      then currentPath ++ [node.GetNameS] else currentPath
    if newPath = path then [node]
    else if newPath.length < path.length then scL p0 path cs newPath
    else []

/-- The child loop of the `search` closure, in traversal order. -/
def scL (p0 : String) (path : List String) : List Node → List String → List Node
  | [], _ => []
  | c :: rest, cp => scN p0 path c cp ++ scL p0 path rest cp
end

/-- Go `SearchChildren`: starts the closure on the receiver with an empty
running path.  An empty target path makes the Go code index `path[0]` out
of range (panic, modelled as `none`). -/
def Node.SearchChildren (n : Node) (path : List String) : Option (List Node) :=
  match path with
  | [] => none
  | p0 :: _ => some (scN p0 path n [])

mutual
/-- Semantic bridge (not source code): every node of the tree paired with
its full name-path from the root, in pre-order. -/
def pathsN : Node → List String → List (List String × Node)
  | .mk nm x ct at_ cs, cp =>
    let node : Node := .mk nm x ct at_ cs
    (cp ++ [node.GetNameS], node) :: pathsL cs (cp ++ [node.GetNameS])

/-- Child loop of `pathsN`, in pre-order. -/
def pathsL : List Node → List String → List (List String × Node)
  | [], _ => []
  | c :: rest, cp => pathsN c cp ++ pathsL rest cp
end

mutual
/-- Specification transform describing Go `Copy` on pure trees: the name in
use is kept (the unused naming slot is dropped when the qualified name
wins), the content becomes the effective content, attributes are not
copied, children are copied recursively. -/
def copySpec : Node → Node
  | .mk nm x ct _ cs =>
    if x ≠ "" then .mk "" x (effContent ct) [] (copySpecKids cs)
    else .mk nm "" (effContent ct) [] (copySpecKids cs)

/-- Child map of `copySpec`. -/
def copySpecKids : List Node → List Node
  | [] => []
  | c :: rest => copySpec c :: copySpecKids rest
end

/-- A heap vertex: the fields of the Go `Node` struct, with the parent
back-reference and the child list as node ids (heap indices). -/
structure NodeData where
  name : String
  xmlName : String
  content : String
  attrs : List (String × String)
  parent : Option Nat
  children : List Nat
deriving Repr, DecidableEq

instance : Inhabited NodeData := ⟨⟨"", "", "", [], none, []⟩⟩

/-- The heap: node ids are indices into the list; allocation appends. -/
abbrev Heap := List NodeData

/-- Dereference a node id. -/
def nodeAt (H : Heap) (i : Nat) : NodeData :=
  H.getD i default

/-- Go `GetName`/`GetNameS` on the heap: qualified name wins. -/
def getNameH (H : Heap) (i : Nat) : String :=
  if (nodeAt H i).xmlName ≠ "" then (nodeAt H i).xmlName else (nodeAt H i).name

/-- Go `GetContentS` on the heap: the raw content. -/
def getContentSH (H : Heap) (i : Nat) : String :=
  (nodeAt H i).content

/-- Go `GetChild`/`GetChildS` on the heap: first child id whose name
matches. -/
def getChildH (H : Heap) (i : Nat) (nm : String) : Option Nat :=
  (nodeAt H i).children.find? (fun j => getNameH H j = nm)

/-- Go `GetChildByContent` on the heap: first child id whose raw content
matches. -/
def getChildByContentH (H : Heap) (i : Nat) (ct : String) : Option Nat :=
  (nodeAt H i).children.find? (fun j => getContentSH H j = ct)

/-- Go `SetContent`/`SetContentS` on the heap. -/
def setContentH (H : Heap) (i : Nat) (ct : String) : Heap :=
  H.set i { nodeAt H i with content := ct }

/-- Go `AddChild` on the heap: append the id, leaving the child's parent
pointer untouched. -/
def addChildH (H : Heap) (i : Nat) (j : Nat) : Heap :=
  H.set i { nodeAt H i with children := (nodeAt H i).children ++ [j] }

/-- Go `NewChild`/`NewChildS` on the heap: allocate a child following the
parent's naming convention, link its parent pointer back, append it, and
return the new id. -/
def newChildH (H : Heap) (i : Nat) (nm ct : String) : Heap × Nat :=
  let child : NodeData :=
    if (nodeAt H i).xmlName ≠ "" then ⟨"", nm, ct, [], some i, []⟩
    else ⟨nm, "", ct, [], some i, []⟩
  (addChildH (H ++ [child]) i H.length, H.length)

/-- Go `searchAncestor`: walk the parent chain; return the node whose
parent carries the searched name.  The outer `none` is fuel exhaustion;
`some none` is Go's `nil` result. -/
def searchAncestorGo : Nat → Heap → Nat → String → Option (Option Nat)
  | 0, _, _, _ => none
  | fuel+1, H, i, anc =>
    match (nodeAt H i).parent with
    | none => some none
    | some p =>
      if getNameH H p = anc then some (some i) else searchAncestorGo fuel H p anc

/-- The `for _, child := range subtemplate.Children` loop of Go `Merge`;
`recMerge` is the recursive call at one fuel less. -/
def mergeStep (recMerge : Heap → Nat → Nat → Option Heap) (skip : List String) :
    Heap → Nat → List Nat → Option Heap
  | H, _, [] => some H
  | H, n, c :: rest =>
    let mine? := getChildH H n (getNameH H c)
    if getNameH H c = "" then
      let H' :=
        match mine? with
        | some m =>
          match (nodeAt H m).parent with
          | some p =>
            if getChildByContentH H p (getContentSH H c) = none then addChildH H p c
            else if getChildByContentH H n (getContentSH H c) = none then addChildH H n c
            else H
          | none =>
            if getChildByContentH H n (getContentSH H c) = none then addChildH H n c else H
        | none =>
          if getChildByContentH H n (getContentSH H c) = none then addChildH H n c else H
      mergeStep recMerge skip H' n rest
    else
      match mine? with
      | none => mergeStep recMerge skip (addChildH H n c) n rest
      | some m =>
        let H1 :=
          if (match (nodeAt H m).parent with
              | some p => Contains skip (getNameH H p)
              | none => false) then
            setContentH H m (getContentSH H m ++ "," ++ getContentSH H c)
          else setContentH H m (getContentSH H c)
        match recMerge H1 m c with
        | none => none
        | some H2 => mergeStep recMerge skip H2 n rest

/-- Go `Merge`: a nil subtemplate returns at once; otherwise adopt the raw
content when the receiver has none and run the child loop.  Fuel bounds
the recursion depth (`none` = fuel ran out). -/
def mergeGo : Nat → Heap → Nat → Option Nat → List String → Option Heap
  | _, H, _, none, _ => some H
  | 0, _, _, some _, _ => none
  | fuel+1, H, n, some sub, skip =>
    let H0 := if (nodeAt H n).content = "" then setContentH H n (nodeAt H sub).content else H
    mergeStep (fun H' m c => mergeGo fuel H' m (some c) skip) skip H0 n
      (nodeAt H0 sub).children

/-- The child loop of Go `PreprocessTemplate`: for each child whose name is
non-empty and found in the receiver, demote the found node's content into
a fresh anonymous child when a `"LabelAgent"` ancestor exists and the
content is non-empty, then recurse into the found node. -/
def ppKids (recPP : Heap → Nat → Option Heap) (saF : Nat) :
    Heap → Nat → List Nat → Option Heap
  | H, _, [] => some H
  | H, n, c :: rest =>
    match getChildH H n (getNameH H c) with
    | some m =>
      if getNameH H c ≠ "" then
        match searchAncestorGo saF H m "LabelAgent" with
        | none => none
        | some anc =>
          let H1 :=
            if anc.isSome ∧ (nodeAt H m).content ≠ "" then
              setContentH (newChildH H m "" (getContentSH H c)).1 m ""
            else H
          match recPP H1 m with
          | none => none
          | some H2 => ppKids recPP saF H2 n rest
      else ppKids recPP saF H n rest
    | none => ppKids recPP saF H n rest

/-- Go `PreprocessTemplate` with fuel. -/
def preprocessGo : Nat → Heap → Nat → Option Heap
  | 0, _, _ => none
  | f+1, H, n => ppKids (preprocessGo f) (f+1) H n (nodeAt H n).children

/-- The child loop of Go `Copy`, collecting the fresh ids in order. -/
def copyKids (recCopy : Heap → Nat → Option (Heap × Nat)) :
    Heap → List Nat → Option (Heap × List Nat)
  | H, [] => some (H, [])
  | H, c :: rest =>
    match recCopy H c with
    | none => none
    | some (H1, cId) =>
      match copyKids recCopy H1 rest with
      | none => none
      | some (H2, ids) => some (H2, cId :: ids)

/-- Go `Copy`: fresh clone with the winning name in its slot, the effective
content, no attributes, no parent link, and recursively copied children
(appended directly to the clone's child list). -/
def copyGo : Nat → Heap → Nat → Option (Heap × Nat)
  | 0, _, _ => none
  | f+1, H, i =>
    match copyKids (copyGo f) H (nodeAt H i).children with
    | none => none
    | some (H1, ids) =>
      let nd := nodeAt H i
      let clone : NodeData :=
        if nd.xmlName ≠ "" then ⟨"", nd.xmlName, effContent nd.content, [], none, ids⟩
        else ⟨nd.name, "", effContent nd.content, [], none, ids⟩
      some (H1 ++ [clone], H1.length)

/-- Child loop of the heap-to-tree abstraction. -/
def toTreeKids (recT : Heap → Nat → Option Node) : Heap → List Nat → Option (List Node)
  | _, [] => some []
  | H, c :: rest =>
    match recT H c with
    | none => none
    | some t =>
      match toTreeKids recT H rest with
      | none => none
      | some ts => some (t :: ts)

/-- Semantic bridge (not source code): read a heap node back as a pure
tree, dropping the parent pointer. -/
def toTree : Nat → Heap → Nat → Option Node
  | 0, _, _ => none
  | f+1, H, i =>
    let nd := nodeAt H i
    match toTreeKids (toTree f) H nd.children with
    | none => none
    | some ts => some (.mk nd.name nd.xmlName nd.content nd.attrs ts)

/-- Every child id stored anywhere in the heap is a valid index: the heaps
produced by the decoder and the constructors (no dangling ids). -/
def closedHeap (H : Heap) : Prop :=
  ∀ nd ∈ H, ∀ c ∈ nd.children, c < H.length

/-! ## Helper lemmas -/

@[simp] theorem Node.name_mk (nm x ct : String) (at_ : List (String × String))
    (cs : List Node) : (Node.mk nm x ct at_ cs).name = nm := rfl

@[simp] theorem Node.XMLName_mk (nm x ct : String) (at_ : List (String × String))
    (cs : List Node) : (Node.mk nm x ct at_ cs).XMLName = x := rfl

@[simp] theorem Node.Content_mk (nm x ct : String) (at_ : List (String × String))
    (cs : List Node) : (Node.mk nm x ct at_ cs).Content = ct := rfl

@[simp] theorem Node.Attrs_mk (nm x ct : String) (at_ : List (String × String))
    (cs : List Node) : (Node.mk nm x ct at_ cs).Attrs = at_ := rfl

@[simp] theorem Node.Children_mk (nm x ct : String) (at_ : List (String × String))
    (cs : List Node) : (Node.mk nm x ct at_ cs).Children = cs := rfl

theorem stringLength_eq_zero {s : String} (h : s.length = 0) : s = "" := by
  cases s with
  | mk data =>
    cases data with
    | nil => rfl
    | cons a l => simp [String.length] at h

/-! ## C9 — effective versus raw content accessors -/

/-- C9: `GetContent` returns the whitespace-trimmed content, empty when the
trimmed content begins with `<`; `GetContentS` returns the raw content
unconditionally; and `GetChildContent` / `GetChildContentS` can disagree
on the same child. -/
theorem getContent_trimmed_getContentS_raw :
    (∀ n : Node,
      n.GetContent = if (trimStr n.Content).front = '<' then "" else trimStr n.Content)
  ∧ (∀ n : Node, n.GetContentS = n.Content)
  ∧ (Node.GetChildContent (.mk "p" "" "" [] [.mk "k" "" " v " [] []]) "k"
      ≠ Node.GetChildContentS (.mk "p" "" "" [] [.mk "k" "" " v " [] []]) "k") := by
  refine ⟨fun n => ?_, fun n => rfl, by decide⟩
  unfold Node.GetContent effContent
  by_cases h0 : (trimStr n.Content).length = 0
  · have he : trimStr n.Content = "" := stringLength_eq_zero h0
    simp [h0, he]
  · by_cases h1 : (trimStr n.Content).front = '<'
    · simp [h0, h1]
    · simp [h0, h1]

/-! ## C2 — nil arguments to Merge and Union -/

/-- C2 counterexample: `Union` with a nil source does not return normally
with the receiver unchanged — the body dereferences the nil source and
panics (modelled as `none`). -/
theorem unionPtr_nil_panics_cex :
    Node.UnionPtr (.mk "n" "" "c" [] []) none ≠ some (.mk "n" "" "c" [] []) := by
  decide

/-- C2 (amended): `Merge` with a nil subtemplate returns at once leaving
the receiver (and the whole heap) unchanged, for any fuel; `Union` with a
nil source panics (nil-pointer dereference) instead of returning. -/
theorem merge_nil_noop_union_nil_panics :
    (∀ (fuel : Nat) (H : Heap) (n : Nat) (skip : List String),
        mergeGo fuel H n none skip = some H)
  ∧ (∀ n : Node, n.UnionPtr none = none) := by
  refine ⟨fun fuel H n skip => ?_, fun n => rfl⟩
  cases fuel <;> rfl

/-! ## C8 — FlatList preserves child order -/

/-- C8: for a tree whose children were inserted in order `X, Y, Z`,
`FlatList` emits the flattened entries of those subtrees in the same
left-to-right order, whatever the subtree depths, under the prefix
extended by the node's own name. -/
theorem flatList_preserves_child_order (nm x ct : String)
    (at_ : List (String × String)) (X Y Z : Node) (pfx : String) :
    Node.FlatList (.mk nm x ct at_ [X, Y, Z]) pfx =
      Node.FlatList X (pfxStep (Node.GetNameS (.mk nm x ct at_ [X, Y, Z])) pfx)
        ++ Node.FlatList Y (pfxStep (Node.GetNameS (.mk nm x ct at_ [X, Y, Z])) pfx)
        ++ Node.FlatList Z (pfxStep (Node.GetNameS (.mk nm x ct at_ [X, Y, Z])) pfx) := by
  simp [Node.FlatList, flatKids]

/-! ## C1 — which side's children drive the Union branch -/

theorem Node.GetChildS_SetContent (n : Node) (ct nm : String) :
    (n.SetContent ct).GetChildS nm = n.GetChildS nm := by
  simp [Node.GetChildS, Node.SetContent]

/-- C1 counterexample: receiver child `"a"` has children and non-empty
content `"keep"`; the source child `"a"` is a leaf with content `"newv"`.
The claim predicts recursion into the receiver child (leaving `"keep"` in
place, since recursion only adopts content when the receiver child's is
empty); the code instead overwrites the receiver child's content with
`"newv"` because it branches on the SOURCE child's children. -/
theorem union_overwrites_despite_receiver_subtree_cex :
    (Node.GetChildContentS
        (Node.Union (.mk "r" "" "" [] [.mk "a" "" "keep" [] [.mk "g" "" "x" [] []]])
          (.mk "r" "" "" [] [.mk "a" "" "newv" [] []])) "a" = "newv")
  ∧ (Node.Union (.mk "r" "" "" [] [.mk "a" "" "keep" [] [.mk "g" "" "x" [] []]])
        (.mk "r" "" "" [] [.mk "a" "" "newv" [] []]) ≠
      Node.mk "r" "" "" []
        [Node.Union (.mk "a" "" "keep" [] [.mk "g" "" "x" [] []])
          (.mk "a" "" "newv" [] [])]) := by
  constructor
  · decide
  · decide

/-- C1 (amended): on a name collision, `Union` recurses into the existing
receiver child exactly when the SOURCE child has children; otherwise the
source child's content overwrites the receiver child's content, even when
the receiver child has children of its own. -/
theorem union_branches_on_source_child
    (n : Node) (snm sx sct : String) (sat : List (String × String)) (c m : Node)
    (hm : n.GetChildS c.GetNameS = some m) :
    (c.Children ≠ [] →
      Node.Union n (.mk snm sx sct sat [c]) =
        (fun n0 => Node.mk n0.name n0.XMLName n0.Content n0.Attrs
            (replaceFirstNamed n0.Children c.GetNameS (Node.Union m c)))
          (if n.GetContent.length = 0
           then n.SetContent (Node.GetContent (.mk snm sx sct sat [c])) else n))
  ∧ (c.Children = [] →
      Node.Union n (.mk snm sx sct sat [c]) =
        (fun n0 => Node.mk n0.name n0.XMLName n0.Content n0.Attrs
            (replaceFirstNamed n0.Children c.GetNameS (m.SetContent c.GetContentS)))
          (if n.GetContent.length = 0
           then n.SetContent (Node.GetContent (.mk snm sx sct sat [c])) else n))
    := by
  have key : ∀ n0 : Node, n0.GetChildS c.GetNameS = some m →
      (c.Children ≠ [] →
        unionKids n0 [c] =
          Node.mk n0.name n0.XMLName n0.Content n0.Attrs
            (replaceFirstNamed n0.Children c.GetNameS (Node.Union m c)))
      ∧ (c.Children = [] →
        unionKids n0 [c] =
          Node.mk n0.name n0.XMLName n0.Content n0.Attrs
            (replaceFirstNamed n0.Children c.GetNameS (m.SetContent c.GetContentS))) := by
    intro n0 h0
    have hh : n0.HasChildS c.GetNameS = true := by
      simp [Node.HasChildS, h0]
    constructor
    · intro hcc
      simp [unionKids, hh, hcc, h0]
    · intro hcc
      simp [unionKids, hh, hcc, h0, Node.SetChildContentS]
  constructor
  · intro hcc
    by_cases hn : n.GetContent.length = 0
    · simpa [Node.Union, hn] using
        ((key _ (by rw [Node.GetChildS_SetContent]; exact hm)).1 hcc)
    · simpa [Node.Union, hn] using ((key _ hm).1 hcc)
  · intro hcc
    by_cases hn : n.GetContent.length = 0
    · simpa [Node.Union, hn] using
        ((key _ (by rw [Node.GetChildS_SetContent]; exact hm)).2 hcc)
    · simpa [Node.Union, hn] using ((key _ hm).2 hcc)

/-- C1 witness: both branches of the amended statement at concrete trees —
a source child with children (recursion) and a leaf source child
(overwrite). -/
theorem union_branches_on_source_child_witness :
    (Node.GetChildS (.mk "r" "" "q" [] [.mk "a" "" "k" [] []])
        (Node.GetNameS (.mk "a" "" "v" [] [.mk "d" "" "w" [] []])) =
      some (.mk "a" "" "k" [] []))
  ∧ (Node.Union (.mk "r" "" "q" [] [.mk "a" "" "k" [] []])
        (.mk "s" "" "" [] [.mk "a" "" "v" [] [.mk "d" "" "w" [] []]]) =
      (fun n0 => Node.mk n0.name n0.XMLName n0.Content n0.Attrs
          (replaceFirstNamed n0.Children
            (Node.GetNameS (.mk "a" "" "v" [] [.mk "d" "" "w" [] []]))
            (Node.Union (.mk "a" "" "k" [] [])
              (.mk "a" "" "v" [] [.mk "d" "" "w" [] []]))))
        (if (Node.GetContent (.mk "r" "" "q" [] [.mk "a" "" "k" [] []])).length = 0
         then Node.SetContent (.mk "r" "" "q" [] [.mk "a" "" "k" [] []])
           (Node.GetContent (.mk "s" "" ""
             [] [.mk "a" "" "v" [] [.mk "d" "" "w" [] []]]))
         else .mk "r" "" "q" [] [.mk "a" "" "k" [] []]))
  ∧ (Node.Union (.mk "r" "" "q" [] [.mk "a" "" "k" [] []])
        (.mk "s" "" "" [] [.mk "a" "" "v2" [] []]) =
      (fun n0 => Node.mk n0.name n0.XMLName n0.Content n0.Attrs
          (replaceFirstNamed n0.Children
            (Node.GetNameS (.mk "a" "" "v2" [] []))
            (Node.SetContent (.mk "a" "" "k" [] [])
              (Node.GetContentS (.mk "a" "" "v2" [] [])))))
        (if (Node.GetContent (.mk "r" "" "q" [] [.mk "a" "" "k" [] []])).length = 0
         then Node.SetContent (.mk "r" "" "q" [] [.mk "a" "" "k" [] []])
           (Node.GetContent (.mk "s" "" "" [] [.mk "a" "" "v2" [] []]))
         else .mk "r" "" "q" [] [.mk "a" "" "k" [] []])) :=
  ⟨by decide,
   (union_branches_on_source_child _ "s" "" "" [] _ _ (by decide)).1 (by decide),
   (union_branches_on_source_child _ "s" "" "" [] _ _ (by decide)).2 rfl⟩

/-! ## C10 — PopChild swap-removes the first match -/

theorem getLastD_append_cons {α : Type} (xs : List α) (c : α) (ys : List α) (d : α) :
    (xs ++ c :: ys).getLastD d = ys.getLastD c := by
  induction xs generalizing d with
  | nil => exact List.getLastD_cons d c ys
  | cons a l ih => rw [List.cons_append, List.getLastD_cons, ih]

theorem set_append_len {α : Type} (xs : List α) (c : α) (ys : List α) (v : α) :
    (xs ++ c :: ys).set xs.length v = xs ++ v :: ys := by
  induction xs with
  | nil => rfl
  | cons a l ih => simp [List.set, ih]

theorem getq_append_len {α : Type} (xs : List α) (c : α) (ys : List α) :
    (xs ++ c :: ys).get? xs.length = some c := by
  induction xs with
  | nil => rfl
  | cons a l ih => simpa using ih

theorem findIdx?_append_first {α : Type} (p : α → Bool) (xs : List α) (c : α)
    (ys : List α) (hxs : ∀ x ∈ xs, p x = false) (hc : p c = true) :
    (xs ++ c :: ys).findIdx? p = some xs.length := by
  induction xs with
  | nil => simp [List.findIdx?_cons, hc]
  | cons a l ih =>
    have ha := hxs a (by simp)
    simp [List.findIdx?_cons, ha, ih (fun x hx => hxs x (by simp [hx]))]

/-- C10: when the receiver has a matching child, `PopChild` removes the
first match (the one after a prefix of non-matching children) by moving
the last element of the child list into its position and returns the
removed child — so the relative order of the remaining children is not
preserved; when no child matches, it returns `none` and leaves the child
list unchanged. -/
theorem popChild_swap_removes_first_match (n : Node) (nm : String) :
    (∀ xs c ys, n.Children = xs ++ c :: ys →
      (∀ x ∈ xs, x.GetNameS ≠ nm) → c.GetNameS = nm →
      n.PopChild nm =
        (some c, .mk n.name n.XMLName n.Content n.Attrs
          (xs ++ (ys.getLastD c :: ys).dropLast)))
  ∧ ((∀ x ∈ n.Children, x.GetNameS ≠ nm) → n.PopChild nm = (none, n)) := by
  constructor
  · intro xs c ys hch hxs hc
    unfold Node.PopChild
    rw [hch]
    rw [show List.findIdx? (fun x => decide (x.GetNameS = nm)) (xs ++ c :: ys) =
          some xs.length from
        findIdx?_append_first _ xs c ys (fun x hx => by simp [hxs x hx]) (by simp [hc])]
    dsimp only
    rw [getq_append_len, getLastD_append_cons, set_append_len, List.dropLast_append]
    simp
  · intro hall
    have hidx : n.Children.findIdx? (fun x => decide (x.GetNameS = nm)) = none := by
      rw [List.findIdx?_eq_none_iff]
      intro x hx
      simp [hall x hx]
    unfold Node.PopChild
    rw [hidx]

/-- C10 witness: popping `"y"` from children `x, y, z, w` yields `x, w, z`
(the last child `w` took `y`'s slot), and popping an absent name is the
identity. -/
theorem popChild_swap_removes_first_match_witness :
    (Node.PopChild
        (.mk "p" "" "" [] [.mk "x" "" "1" [] [], .mk "y" "" "2" [] [],
          .mk "z" "" "3" [] [], .mk "w" "" "4" [] []]) "y" =
      (some (.mk "y" "" "2" [] []),
       .mk "p" "" "" []
        ([Node.mk "x" "" "1" [] []] ++
          (([Node.mk "z" "" "3" [] [], Node.mk "w" "" "4" [] []].getLastD
              (.mk "y" "" "2" [] [])) ::
            [Node.mk "z" "" "3" [] [], Node.mk "w" "" "4" [] []]).dropLast)))
  ∧ ([Node.mk "x" "" "1" [] []] ++
      (([Node.mk "z" "" "3" [] [], Node.mk "w" "" "4" [] []].getLastD
          (.mk "y" "" "2" [] [])) ::
        [Node.mk "z" "" "3" [] [], Node.mk "w" "" "4" [] []]).dropLast =
      [Node.mk "x" "" "1" [] [], Node.mk "w" "" "4" [] [], Node.mk "z" "" "3" [] []])
  ∧ (Node.PopChild (.mk "p" "" "" [] [.mk "x" "" "1" [] []]) "q" =
      (none, .mk "p" "" "" [] [.mk "x" "" "1" [] []])) :=
  ⟨(popChild_swap_removes_first_match _ "y").1 _ _ _ rfl (by decide) (by decide),
   by decide,
   (popChild_swap_removes_first_match _ "q").2 (by decide)⟩

/-! ## C5 — SearchChildren path exactness -/

mutual
theorem pathsN_len : ∀ (node : Node) (cp : List String)
    (pr : List String × Node), pr ∈ pathsN node cp → cp.length < pr.1.length
  | .mk nm x ct at_ cs, cp, pr, hpr => by
    rw [pathsN] at hpr
    rcases List.mem_cons.mp hpr with h | h
    · subst h; simp
    · have := pathsL_len cs (cp ++ [Node.GetNameS (.mk nm x ct at_ cs)]) pr h
      simp at this
      omega

theorem pathsL_len : ∀ (cs : List Node) (cp : List String)
    (pr : List String × Node), pr ∈ pathsL cs cp → cp.length < pr.1.length
  | c :: rest, cp, pr, hpr => by
    rw [pathsL] at hpr
    rcases List.mem_append.mp hpr with h | h
    · exact pathsN_len c cp pr h
    · exact pathsL_len rest cp pr h
end

mutual
theorem scN_eq : ∀ (p0 : String) (path : List String) (node : Node) (cp : List String),
    (0 < cp.length ∨ node.GetNameS = p0) → cp.length < path.length →
    scN p0 path node cp =
      ((pathsN node cp).filter (fun pr => pr.1 == path)).map Prod.snd
  | p0, path, .mk nm x ct at_ cs, cp, hanchor, hlt => by
    rw [scN, pathsN]
    rw [if_pos hanchor]
    set nameS := Node.GetNameS (.mk nm x ct at_ cs) with hns
    by_cases heq : cp ++ [nameS] = path
    · rw [if_pos heq]
      have htail : ∀ pr ∈ pathsL cs (cp ++ [nameS]), ¬(pr.1 == path) = true := by
        intro pr hpr
        have hlen := pathsL_len cs (cp ++ [nameS]) pr hpr
        simp only [beq_iff_eq]
        intro hcontra
        rw [hcontra, ← heq] at hlen
        simp at hlen
      rw [List.filter_cons_of_pos (by simp [heq]), List.filter_eq_nil_iff.mpr htail]
      simp
    · rw [if_neg heq]
      by_cases hlt2 : (cp ++ [nameS]).length < path.length
      · rw [if_pos hlt2]
        rw [List.filter_cons_of_neg (by simp [heq])]
        exact scL_eq p0 path cs (cp ++ [nameS]) (by simp) hlt2
      · rw [if_neg hlt2]
        have htail : ∀ pr ∈ pathsL cs (cp ++ [nameS]), ¬(pr.1 == path) = true := by
          intro pr hpr
          have hlen := pathsL_len cs (cp ++ [nameS]) pr hpr
          simp only [beq_iff_eq]
          intro hcontra
          rw [hcontra] at hlen
          omega
        rw [List.filter_cons_of_neg (by simp [heq]), List.filter_eq_nil_iff.mpr htail]
        simp

theorem scL_eq : ∀ (p0 : String) (path : List String) (cs : List Node) (cp : List String),
    0 < cp.length → cp.length < path.length →
    scL p0 path cs cp =
      ((pathsL cs cp).filter (fun pr => pr.1 == path)).map Prod.snd
  | p0, path, [], cp, h0, hlt => by
    rw [scL, pathsL]; simp
  | p0, path, c :: rest, cp, h0, hlt => by
    rw [scL, pathsL]
    rw [List.filter_append, List.map_append,
      scN_eq p0 path c cp (Or.inl h0) hlt, scL_eq p0 path rest cp h0 hlt]
end

/-- C5 counterexample: with search root `"r"` and path `["a"]`, the code
returns the grandchild `"a"` even though its full name-path from the
search root is `["r", "a"] ≠ ["a"]` — the traversal only anchors the
running path at the first node whose name equals the head segment, so a
node can match through a path that does not start at the root. -/
theorem searchChildren_full_path_cex :
    (Node.SearchChildren (.mk "r" "" "" [] [.mk "a" "" "v" [] []]) ["a"] =
      some [.mk "a" "" "v" [] []])
  ∧ (pathsN (.mk "r" "" "" [] [.mk "a" "" "v" [] []]) [] =
      [(["r"], .mk "r" "" "" [] [.mk "a" "" "v" [] []]),
       (["r", "a"], .mk "a" "" "v" [] [])])
  ∧ (["r", "a"] ≠ ["a"]) :=
  ⟨by decide, by decide, by decide⟩

/-- C5 (amended): when the search root's name equals the head of the target
path, `SearchChildren` returns exactly the nodes whose full name-path from
the root equals the path — never proper prefixes or supersets — listed in
pre-order traversal sequence (the pre-order node/path listing filtered to
the exact path). -/
theorem searchChildren_exact_anchored (n : Node) (p0 : String) (rest : List String)
    (h : n.GetNameS = p0) :
    n.SearchChildren (p0 :: rest) =
      some (((pathsN n []).filter (fun pr => pr.1 == p0 :: rest)).map Prod.snd) := by
  show some (scN p0 (p0 :: rest) n []) = _
  rw [scN_eq p0 (p0 :: rest) n [] (Or.inr h) (by simp)]

/-- C5 witness: the anchored exactness applied to a concrete
three-level tree and the path `["r", "c", "b"]`. -/
theorem searchChildren_exact_anchored_witness :
    (Node.GetNameS (.mk "r" "" "" [] [.mk "c" "" "" [] [.mk "b" "" "w" [] []]]) = "r")
  ∧ (Node.SearchChildren (.mk "r" "" "" [] [.mk "c" "" "" [] [.mk "b" "" "w" [] []]])
        ["r", "c", "b"] =
      some (((pathsN (.mk "r" "" "" [] [.mk "c" "" "" [] [.mk "b" "" "w" [] []]]) []).filter
          (fun pr => pr.1 == ["r", "c", "b"])).map Prod.snd)) :=
  ⟨by decide, searchChildren_exact_anchored _ "r" ["c", "b"] (by decide)⟩

/-! ## Heap stability lemmas -/

theorem length_setContentH (H : Heap) (i : Nat) (ct : String) :
    (setContentH H i ct).length = H.length := by
  simp [setContentH]

theorem length_addChildH (H : Heap) (i j : Nat) :
    (addChildH H i j).length = H.length := by
  simp [addChildH]

theorem nodeAt_set (H : Heap) (i : Nat) (nd : NodeData) (j : Nat) :
    nodeAt (H.set i nd) j =
      if j = i ∧ i < H.length then nd else nodeAt H j := by
  by_cases hij : j = i
  · subst hij
    by_cases hlen : j < H.length
    · simp [nodeAt, List.getD, List.getElem?_set_eq_of_lt, hlen]
    · rw [List.set_eq_of_length_le (by omega)]
      simp [hlen]
  · simp [nodeAt, List.getD, List.getElem?_set_ne (Ne.symm hij), hij]

theorem nodeAt_setContentH (H : Heap) (i : Nat) (ct : String) (j : Nat) :
    nodeAt (setContentH H i ct) j =
      if j = i ∧ i < H.length then { nodeAt H i with content := ct }
      else nodeAt H j := by
  unfold setContentH
  exact nodeAt_set H i _ j

theorem nodeAt_addChildH (H : Heap) (i j k : Nat) :
    nodeAt (addChildH H i j) k =
      if k = i ∧ i < H.length
      then { nodeAt H i with children := (nodeAt H i).children ++ [j] }
      else nodeAt H k := by
  unfold addChildH
  exact nodeAt_set H i _ k

theorem name_setContentH (H : Heap) (i : Nat) (ct : String) (j : Nat) :
    (nodeAt (setContentH H i ct) j).name = (nodeAt H j).name := by
  rw [nodeAt_setContentH]
  split
  · rename_i h; rw [h.1]
  · rfl

theorem xmlName_setContentH (H : Heap) (i : Nat) (ct : String) (j : Nat) :
    (nodeAt (setContentH H i ct) j).xmlName = (nodeAt H j).xmlName := by
  rw [nodeAt_setContentH]
  split
  · rename_i h; rw [h.1]
  · rfl

theorem parent_setContentH (H : Heap) (i : Nat) (ct : String) (j : Nat) :
    (nodeAt (setContentH H i ct) j).parent = (nodeAt H j).parent := by
  rw [nodeAt_setContentH]
  split
  · rename_i h; rw [h.1]
  · rfl

theorem children_setContentH (H : Heap) (i : Nat) (ct : String) (j : Nat) :
    (nodeAt (setContentH H i ct) j).children = (nodeAt H j).children := by
  rw [nodeAt_setContentH]
  split
  · rename_i h; rw [h.1]
  · rfl

theorem content_setContentH_ne (H : Heap) (i : Nat) (ct : String) (j : Nat)
    (hne : j ≠ i) :
    (nodeAt (setContentH H i ct) j).content = (nodeAt H j).content := by
  rw [nodeAt_setContentH]
  simp [hne]

theorem content_setContentH_self (H : Heap) (i : Nat) (ct : String)
    (hlen : i < H.length) :
    (nodeAt (setContentH H i ct) i).content = ct := by
  rw [nodeAt_setContentH]
  simp [hlen]

theorem getNameH_setContentH (H : Heap) (i : Nat) (ct : String) (j : Nat) :
    getNameH (setContentH H i ct) j = getNameH H j := by
  unfold getNameH
  rw [name_setContentH, xmlName_setContentH]

theorem getChildH_setContentH (H : Heap) (i : Nat) (ct : String) (a : Nat)
    (nm : String) :
    getChildH (setContentH H i ct) a nm = getChildH H a nm := by
  unfold getChildH
  rw [children_setContentH]
  simp only [getNameH_setContentH]

theorem name_addChildH (H : Heap) (i j k : Nat) :
    (nodeAt (addChildH H i j) k).name = (nodeAt H k).name := by
  rw [nodeAt_addChildH]
  split
  · rename_i h; rw [h.1]
  · rfl

theorem xmlName_addChildH (H : Heap) (i j k : Nat) :
    (nodeAt (addChildH H i j) k).xmlName = (nodeAt H k).xmlName := by
  rw [nodeAt_addChildH]
  split
  · rename_i h; rw [h.1]
  · rfl

theorem parent_addChildH (H : Heap) (i j k : Nat) :
    (nodeAt (addChildH H i j) k).parent = (nodeAt H k).parent := by
  rw [nodeAt_addChildH]
  split
  · rename_i h; rw [h.1]
  · rfl

theorem content_addChildH (H : Heap) (i j k : Nat) :
    (nodeAt (addChildH H i j) k).content = (nodeAt H k).content := by
  rw [nodeAt_addChildH]
  split
  · rename_i h; rw [h.1]
  · rfl

theorem getNameH_addChildH (H : Heap) (i j k : Nat) :
    getNameH (addChildH H i j) k = getNameH H k := by
  unfold getNameH
  rw [name_addChildH, xmlName_addChildH]

theorem children_addChildH_ne (H : Heap) (i j k : Nat) (hne : k ≠ i) :
    (nodeAt (addChildH H i j) k).children = (nodeAt H k).children := by
  rw [nodeAt_addChildH]
  simp [hne]

theorem children_addChildH_self (H : Heap) (i j : Nat) (hlen : i < H.length) :
    (nodeAt (addChildH H i j) i).children = (nodeAt H i).children ++ [j] := by
  rw [nodeAt_addChildH]
  simp [hlen]

/-! ## C3 — Merge skip-overwrite accumulation -/

/-- C3: merging an override child (content `"b"`) onto a base child
(content `"a"`) whose parent is named `"labels"` concatenates to `"a,b"`
when `"labels"` is in the caller-supplied skip-overwrite list, and
overwrites to `"b"` when it is not. -/
theorem merge_skip_overwrite_concatenates
    (H : Heap) (n m pn s c : Nat) (skip : List String) (fuel : Nat)
    (hmn : m ≠ n) (hcn : c ≠ n) (hmlen : m < H.length)
    (hname : getNameH H c ≠ "")
    (hfind : getChildH H n (getNameH H c) = some m)
    (hpar : (nodeAt H m).parent = some pn)
    (hpnname : getNameH H pn = "labels")
    (hma : (nodeAt H m).content = "a")
    (hcb : (nodeAt H c).content = "b")
    (hsch : (nodeAt H s).children = [c])
    (hcch : (nodeAt H c).children = []) :
    ∃ H', mergeGo (fuel + 2) H n (some s) skip = some H'
      ∧ (nodeAt H' m).content = (if Contains skip "labels" then "a,b" else "b") := by
  have main : ∀ H0 : Heap, H0.length = H.length →
      getNameH H0 c = getNameH H c →
      getChildH H0 n (getNameH H0 c) = some m →
      (nodeAt H0 m).parent = some pn →
      getNameH H0 pn = "labels" →
      (nodeAt H0 m).content = "a" →
      (nodeAt H0 c).content = "b" →
      (nodeAt H0 c).children = [] →
      mergeStep (fun H' m c => mergeGo (fuel + 1) H' m (some c) skip) skip H0 n [c]
        = some (setContentH H0 m (if Contains skip "labels" then "a,b" else "b")) := by
    intro H0 hlen0 hnc hf hp hpn hm0 hc0 hcc0
    rw [mergeStep]
    rw [if_neg (by rw [hnc]; exact hname)]
    rw [hf]
    dsimp only
    rw [hp]
    dsimp only
    rw [hpn]
    simp only [getContentSH]
    rw [hm0, hc0]
    have happ : "a" ++ "," ++ "b" = "a,b" := rfl
    rw [happ]
    have hrec : ∀ v : String, v ≠ "" →
        mergeGo (fuel + 1) (setContentH H0 m v) m (some c) skip
          = some (setContentH H0 m v) := by
      intro v hv
      rw [mergeGo]
      rw [content_setContentH_self _ _ _ (by omega)]
      rw [if_neg hv]
      rw [children_setContentH, hcc0]
      rfl
    by_cases hct : Contains skip "labels" = true
    · rw [if_pos hct, if_pos hct, hrec "a,b" (by decide)]
      rfl
    · rw [if_neg hct, if_neg hct, hrec "b" (by decide)]
      rfl
  rw [mergeGo]
  by_cases hn0 : (nodeAt H n).content = ""
  · rw [if_pos hn0]
    have hres := main (setContentH H n (nodeAt H s).content)
      (by rw [length_setContentH])
      (by rw [getNameH_setContentH])
      (by rw [getNameH_setContentH, getChildH_setContentH]; exact hfind)
      (by rw [parent_setContentH]; exact hpar)
      (by rw [getNameH_setContentH]; exact hpnname)
      (by rw [content_setContentH_ne _ _ _ _ hmn]; exact hma)
      (by rw [content_setContentH_ne _ _ _ _ hcn]; exact hcb)
      (by rw [children_setContentH]; exact hcch)
    rw [show (nodeAt (setContentH H n (nodeAt H s).content) s).children = [c] by
      rw [children_setContentH]; exact hsch]
    refine ⟨_, hres, ?_⟩
    rw [content_setContentH_self _ _ _ (by rw [length_setContentH]; exact hmlen)]
  · rw [if_neg hn0]
    have hres := main H rfl rfl hfind hpar hpnname hma hcb hcch
    rw [hsch]
    refine ⟨_, hres, ?_⟩
    rw [content_setContentH_self _ _ _ hmlen]

/-- C3 witness: on the concrete four-node heap (a `"labels"` parent with
child `x="a"`; an override tree with child `x="b"`), the merge yields
`"a,b"` with skip-list `["labels"]` and `"b"` with an empty skip-list. -/
theorem merge_skip_overwrite_concatenates_witness :
    (∃ H', mergeGo 2
        [⟨"labels", "", "", [], none, [1]⟩, ⟨"x", "", "a", [], some 0, []⟩,
         ⟨"labels", "", "", [], none, [3]⟩, ⟨"x", "", "b", [], some 2, []⟩]
        0 (some 2) ["labels"] = some H'
      ∧ (nodeAt H' 1).content =
          (if Contains ["labels"] "labels" then "a,b" else "b"))
  ∧ ((if Contains ["labels"] "labels" then "a,b" else "b") = "a,b")
  ∧ (∃ H', mergeGo 2
        [⟨"labels", "", "", [], none, [1]⟩, ⟨"x", "", "a", [], some 0, []⟩,
         ⟨"labels", "", "", [], none, [3]⟩, ⟨"x", "", "b", [], some 2, []⟩]
        0 (some 2) [] = some H'
      ∧ (nodeAt H' 1).content = (if Contains [] "labels" then "a,b" else "b"))
  ∧ ((if Contains ([] : List String) "labels" then "a,b" else "b") = "b") :=
  ⟨merge_skip_overwrite_concatenates _ 0 1 0 2 3 ["labels"] 0 (by decide) (by decide)
      (by decide) (by decide) (by decide) (by decide) (by decide) (by decide)
      (by decide) (by decide) (by decide),
   by decide,
   merge_skip_overwrite_concatenates _ 0 1 0 2 3 [] 0 (by decide) (by decide)
      (by decide) (by decide) (by decide) (by decide) (by decide) (by decide)
      (by decide) (by decide) (by decide),
   by decide⟩

/-! ## C4 — anonymous-child dedup in Merge -/

theorem find?_append_first_true {α : Type} (p : α → Bool) (xs : List α) (c : α)
    (hxs : ∀ x ∈ xs, p x = false) (hc : p c = true) :
    (xs ++ [c]).find? p = some c := by
  induction xs with
  | nil => simp [List.find?, hc]
  | cons a l ih =>
    have ha := hxs a (by simp)
    simp only [List.cons_append, List.find?, ha]
    exact ih (fun x hx => hxs x (by simp [hx]))

theorem find?_congr_mem {α : Type} (l : List α) (p q : α → Bool)
    (h : ∀ x ∈ l, p x = q x) : l.find? p = l.find? q := by
  induction l with
  | nil => rfl
  | cons a t ih =>
    have ha := h a (by simp)
    simp only [List.find?, ha]
    cases hq : q a
    · simp only []
      exact ih (fun x hx => h x (by simp [hx]))
    · rfl

/-- C4: anonymous (empty-named) children dedup by content.  First part:
when the receiver's first anonymous child `m` has its parent pointer on
the receiver and already carries the source child's content, merging the
anonymous source child appends nothing anywhere (all child lists are
unchanged).  Second part: merging two anonymous subtemplate children with
the same content `v` into a receiver that has no child with content `v`
appends exactly the first of them, leaving exactly one child of the
receiver with content `v` — a new anonymous child is only appended when no
existing child of the target parent has equal content. -/
theorem merge_anonymous_dedup :
    (∀ (H : Heap) (n s c m : Nat) (skip : List String) (fuel : Nat),
      m ≠ n → c ≠ n →
      (nodeAt H s).children = [c] →
      getNameH H c = "" →
      getChildH H n "" = some m →
      (nodeAt H m).parent = some n →
      (nodeAt H m).content = (nodeAt H c).content →
      ∃ H', mergeGo (fuel + 1) H n (some s) skip = some H'
        ∧ ∀ i, (nodeAt H' i).children = (nodeAt H i).children)
  ∧ (∀ (H : Heap) (n s c1 c2 : Nat) (v : String) (skip : List String) (fuel : Nat),
      s ≠ n → c1 ≠ n → c2 ≠ n → n < H.length →
      n ∉ (nodeAt H n).children →
      (nodeAt H s).children = [c1, c2] →
      getNameH H c1 = "" → getNameH H c2 = "" →
      (nodeAt H c1).content = v → (nodeAt H c2).content = v →
      getChildH H n "" = none →
      getChildByContentH H n v = none →
      (nodeAt H c1).parent = some s →
      ∃ H', mergeGo (fuel + 1) H n (some s) skip = some H'
        ∧ (nodeAt H' n).children = (nodeAt H n).children ++ [c1]
        ∧ ((nodeAt H' n).children.filter
            (fun j => (nodeAt H' j).content = v)).length = 1) := by
  constructor
  · intro H n s c m skip fuel hmn hcn h1 h2 h3 h4 h5
    have main : ∀ H0 : Heap,
        getNameH H0 c = "" →
        getChildH H0 n "" = some m →
        (nodeAt H0 m).parent = some n →
        (nodeAt H0 m).content = (nodeAt H0 c).content →
        mergeStep (fun H' m c => mergeGo fuel H' m (some c) skip) skip H0 n [c]
          = some H0 := by
      intro H0 g2 g3 g4 g5
      rw [mergeStep]
      rw [g2]
      rw [if_pos rfl]
      rw [g3]
      dsimp only
      rw [g4]
      dsimp only
      have hmem : m ∈ (nodeAt H0 n).children := List.mem_of_find?_eq_some g3
      have hby : getChildByContentH H0 n (getContentSH H0 c) ≠ none := by
        rw [Option.ne_none_iff_isSome]
        unfold getChildByContentH
        rw [List.find?_isSome]
        exact ⟨m, hmem, by simp [getContentSH, g5]⟩
      rw [if_neg hby, if_neg hby]
      rfl
    rw [mergeGo]
    by_cases hn0 : (nodeAt H n).content = ""
    · rw [if_pos hn0]
      have hres := main (setContentH H n (nodeAt H s).content)
        (by rw [getNameH_setContentH]; exact h2)
        (by rw [getChildH_setContentH]; exact h3)
        (by rw [parent_setContentH]; exact h4)
        (by rw [content_setContentH_ne _ _ _ _ hmn,
              content_setContentH_ne _ _ _ _ hcn]
            exact h5)
      rw [show (nodeAt (setContentH H n (nodeAt H s).content) s).children = [c] by
        rw [children_setContentH]; exact h1]
      refine ⟨_, hres, fun i => ?_⟩
      rw [children_setContentH]
    · rw [if_neg hn0]
      have hres := main H h2 h3 h4 h5
      rw [h1]
      exact ⟨_, hres, fun i => rfl⟩
  · intro H n s c1 c2 v skip fuel hsn hc1n hc2n hnlen hnn g1 g2 g3 g4 g5 g6 g7 g8
    have main : ∀ H0 : Heap, n < H0.length →
        getNameH H0 c1 = "" → getNameH H0 c2 = "" →
        (nodeAt H0 c1).content = v → (nodeAt H0 c2).content = v →
        getChildH H0 n "" = none →
        getChildByContentH H0 n v = none →
        (nodeAt H0 c1).parent = some s →
        (nodeAt H0 s).children = [c1, c2] →
        mergeStep (fun H' m c => mergeGo fuel H' m (some c) skip) skip H0 n [c1, c2]
          = some (addChildH H0 n c1) := by
      intro H0 hn0len g2' g3' g4' g5' g6' g7' g8' hs0
      rw [mergeStep]
      rw [g2']
      rw [if_pos rfl]
      rw [g6']
      dsimp only
      rw [show getContentSH H0 c1 = v from g4']
      rw [if_pos g7']
      rw [mergeStep]
      rw [show getNameH (addChildH H0 n c1) c2 = "" from by
        rw [getNameH_addChildH]; exact g3']
      rw [if_pos rfl]
      have hnames : ∀ j ∈ (nodeAt H0 n).children, ¬ getNameH H0 j = "" := by
        intro j hj
        have := List.find?_eq_none.mp g6' j hj
        simpa using this
      have hmine : getChildH (addChildH H0 n c1) n "" = some c1 := by
        unfold getChildH
        rw [children_addChildH_self _ _ _ hn0len]
        apply find?_append_first_true
        · intro x hx
          simp [getNameH_addChildH, hnames x hx]
        · simp [getNameH_addChildH, g2']
      rw [hmine]
      dsimp only
      rw [show (nodeAt (addChildH H0 n c1) c1).parent = some s from by
        rw [parent_addChildH]; exact g8']
      dsimp only
      have hc2ct : getContentSH (addChildH H0 n c1) c2 = v := by
        simp [getContentSH, content_addChildH, g5']
      have hgc : getChildByContentH (addChildH H0 n c1) s
          (getContentSH (addChildH H0 n c1) c2) ≠ none := by
        rw [hc2ct, Option.ne_none_iff_isSome]
        unfold getChildByContentH
        rw [children_addChildH_ne _ _ _ _ hsn, hs0, List.find?_isSome]
        exact ⟨c1, by simp, by simp [getContentSH, content_addChildH, g4']⟩
      rw [if_neg hgc]
      have hgc2 : getChildByContentH (addChildH H0 n c1) n
          (getContentSH (addChildH H0 n c1) c2) ≠ none := by
        rw [hc2ct, Option.ne_none_iff_isSome]
        unfold getChildByContentH
        rw [children_addChildH_self _ _ _ hn0len, List.find?_isSome]
        exact ⟨c1, by simp, by simp [getContentSH, content_addChildH, g4']⟩
      rw [if_neg hgc2]
      rfl
    have hfin : ∀ H0 : Heap, H0.length = H.length →
        (∀ i, (nodeAt H0 i).children = (nodeAt H i).children) →
        (∀ i, i ≠ n → nodeAt H0 i = nodeAt H i) →
        (nodeAt (addChildH H0 n c1) n).children = (nodeAt H n).children ++ [c1]
        ∧ ((nodeAt (addChildH H0 n c1) n).children.filter
            (fun j => (nodeAt (addChildH H0 n c1) j).content = v)).length = 1 := by
      intro H0 hlen hch hother
      have hcn' : (nodeAt (addChildH H0 n c1) n).children =
          (nodeAt H n).children ++ [c1] := by
        rw [children_addChildH_self _ _ _ (by omega), hch n]
      refine ⟨hcn', ?_⟩
      rw [hcn', List.filter_append]
      have hold : ((nodeAt H n).children.filter
          (fun j => decide ((nodeAt (addChildH H0 n c1) j).content = v))) = [] := by
        rw [List.filter_eq_nil_iff]
        intro j hj
        have hjn : j ≠ n := fun hcontra => hnn (hcontra ▸ hj)
        have hjct : (nodeAt (addChildH H0 n c1) j).content =
            (nodeAt H j).content := by
          rw [content_addChildH, hother j hjn]
        have := List.find?_eq_none.mp g7 j hj
        simp only [decide_eq_true_eq] at this ⊢
        rw [hjct]
        simpa [getContentSH] using this
      rw [hold]
      have hc1ct : (nodeAt (addChildH H0 n c1) c1).content = v := by
        rw [content_addChildH, hother c1 hc1n]
        exact g4
      simp [hc1ct]
    rw [mergeGo]
    by_cases hn0 : (nodeAt H n).content = ""
    · rw [if_pos hn0]
      have hres := main (setContentH H n (nodeAt H s).content)
        (by rw [length_setContentH]; exact hnlen)
        (by rw [getNameH_setContentH]; exact g2)
        (by rw [getNameH_setContentH]; exact g3)
        (by rw [content_setContentH_ne _ _ _ _ hc1n]; exact g4)
        (by rw [content_setContentH_ne _ _ _ _ hc2n]; exact g5)
        (by rw [getChildH_setContentH]; exact g6)
        (by
          unfold getChildByContentH
          rw [children_setContentH]
          rw [find?_congr_mem _ _ (fun j => decide (getContentSH H j = v))
            (fun j hj => by
              have hjn : j ≠ n := fun hcontra => hnn (hcontra ▸ hj)
              simp [getContentSH, content_setContentH_ne _ _ _ _ hjn])]
          exact g7)
        (by rw [parent_setContentH]; exact g8)
        (by rw [children_setContentH]; exact g1)
      rw [show (nodeAt (setContentH H n (nodeAt H s).content) s).children =
            [c1, c2] by
        rw [children_setContentH]; exact g1]
      refine ⟨_, hres, ?_⟩
      exact hfin _ (by rw [length_setContentH])
        (fun i => by rw [children_setContentH])
        (fun i hin => by rw [nodeAt_setContentH]; simp [hin])
    · rw [if_neg hn0]
      have hres := main H hnlen g2 g3 g4 g5 g6 g7 g8 g1
      rw [g1]
      refine ⟨_, hres, ?_⟩
      exact hfin H rfl (fun i => rfl) (fun i _ => rfl)

/-- C4 witness: on concrete heaps — a receiver that already holds an
anonymous `"v"` child gains nothing from an anonymous `"v"` override, and
a receiver without one gains exactly one from a subtemplate carrying two
identical anonymous children. -/
theorem merge_anonymous_dedup_witness :
    (∃ H', mergeGo 1
        [⟨"r", "", "q", [], none, [1]⟩, ⟨"", "", "v", [], some 0, []⟩,
         ⟨"s", "", "", [], none, [3]⟩, ⟨"", "", "v", [], some 2, []⟩]
        0 (some 2) [] = some H'
      ∧ ∀ i, (nodeAt H' i).children =
          (nodeAt [⟨"r", "", "q", [], none, [1]⟩, ⟨"", "", "v", [], some 0, []⟩,
            ⟨"s", "", "", [], none, [3]⟩, ⟨"", "", "v", [], some 2, []⟩] i).children)
  ∧ (∃ H', mergeGo 1
        [⟨"r", "", "q", [], none, []⟩, ⟨"s", "", "", [], none, [2, 3]⟩,
         ⟨"", "", "v", [], some 1, []⟩, ⟨"", "", "v", [], some 1, []⟩]
        0 (some 1) [] = some H'
      ∧ (nodeAt H' 0).children =
          (nodeAt [⟨"r", "", "q", [], none, []⟩, ⟨"s", "", "", [], none, [2, 3]⟩,
            ⟨"", "", "v", [], some 1, []⟩,
            ⟨"", "", "v", [], some 1, []⟩] 0).children ++ [2]
      ∧ ((nodeAt H' 0).children.filter
          (fun j => (nodeAt H' j).content = "v")).length = 1) :=
  ⟨merge_anonymous_dedup.1 _ 0 2 3 1 [] 0 (by decide) (by decide) (by decide)
      (by decide) (by decide) (by decide) (by decide),
   merge_anonymous_dedup.2 _ 0 1 2 3 "v" [] 0 (by decide) (by decide) (by decide)
      (by decide) (by decide) (by decide) (by decide) (by decide) (by decide)
      (by decide) (by decide) (by decide) (by decide)⟩

/-! ## C7 — PreprocessTemplate demotion under the sentinel ancestor -/

theorem nodeAt_append_self (H : Heap) (nd : NodeData) :
    nodeAt (H ++ [nd]) H.length = nd := by
  unfold nodeAt
  rw [List.getD, List.get?_append_right (le_refl _)]
  simp

theorem nodeAt_append_lt (H : Heap) (nd : NodeData) (i : Nat) (h : i < H.length) :
    nodeAt (H ++ [nd]) i = nodeAt H i := by
  unfold nodeAt
  rw [List.getD, List.getD, List.get?_append h]

/-- C7: for a receiver whose (named, matching) child `m` is a leaf with
content `v`: when `m` has a `"LabelAgent"` ancestor (here its parent, the
receiver itself) and `v` is non-empty, `PreprocessTemplate` demotes the
content into a freshly allocated anonymous child of `m` (parent pointer on
`m`) and clears `m`'s own content, then recurses into `m`; when no such
ancestor exists, the heap is returned unchanged and the content stays
inline. -/
theorem preprocess_demotes_under_sentinel
    (H : Heap) (n m : Nat) (v : String) (f : Nat)
    (hmlen : m < H.length)
    (hch : (nodeAt H n).children = [m])
    (hnm : getNameH H m ≠ "")
    (hpar : (nodeAt H m).parent = some n)
    (hmch : (nodeAt H m).children = [])
    (hct : (nodeAt H m).content = v) :
    (getNameH H n = "LabelAgent" → v ≠ "" →
      ∃ H', preprocessGo (f + 2) H n = some H'
        ∧ (nodeAt H' m).content = ""
        ∧ (nodeAt H' m).children = [H.length]
        ∧ (nodeAt H' H.length).content = v
        ∧ getNameH H' H.length = ""
        ∧ (nodeAt H' H.length).parent = some m)
  ∧ (getNameH H n ≠ "LabelAgent" → (nodeAt H n).parent = none →
      preprocessGo (f + 2) H n = some H) := by
  have hmine : getChildH H n (getNameH H m) = some m := by
    unfold getChildH
    rw [hch]
    simp [List.find?]
  constructor
  · intro hla hv
    rw [preprocessGo]
    rw [hch]
    rw [ppKids]
    rw [hmine]
    dsimp only
    rw [if_pos hnm]
    rw [show searchAncestorGo (f + 1 + 1) H m "LabelAgent" = some (some m) from by
      rw [searchAncestorGo, hpar]
      dsimp only
      rw [if_pos hla]]
    dsimp only
    rw [if_pos ⟨rfl, by rw [hct]; exact hv⟩]
    rw [show getContentSH H m = v from hct]
    set ch : NodeData := ⟨"", "", v, [], some m, []⟩ with hchdef
    have hnewch : (newChildH H m "" v).1 = addChildH (H ++ [ch]) m H.length := by
      unfold newChildH
      dsimp only
      rw [ite_self]
    rw [hnewch]
    have hlen1 : m < (addChildH (H ++ [ch]) m H.length).length := by
      rw [length_addChildH, List.length_append]
      simp
      omega
    have hchm : (nodeAt (setContentH (addChildH (H ++ [ch]) m H.length) m "") m).children
        = [H.length] := by
      rw [children_setContentH, children_addChildH_self _ _ _ (by
        rw [List.length_append]; simp; omega)]
      rw [nodeAt_append_lt _ _ _ hmlen, hmch]
      rfl
    have hlm : H.length ≠ m := by omega
    have hnodeNew : nodeAt (setContentH (addChildH (H ++ [ch]) m H.length) m "")
        H.length = ch := by
      rw [nodeAt_setContentH]
      simp only [hlm, false_and, if_false]
      rw [nodeAt_addChildH]
      simp only [hlm, false_and, if_false]
      exact nodeAt_append_self H ch
    have hgname : getNameH (setContentH (addChildH (H ++ [ch]) m H.length) m "")
        H.length = "" := by
      unfold getNameH
      rw [hnodeNew]
      rfl
    have hrec : preprocessGo (f + 1)
        (setContentH (addChildH (H ++ [ch]) m H.length) m "") m =
        some (setContentH (addChildH (H ++ [ch]) m H.length) m "") := by
      rw [preprocessGo, hchm, ppKids, hgname]
      cases hg : getChildH (setContentH (addChildH (H ++ [ch]) m H.length) m "") m ""
      · rfl
      · dsimp only
        rw [if_neg (by simp)]
        rfl
    rw [hrec]
    refine ⟨_, rfl, ?_, hchm, ?_, hgname, ?_⟩
    · exact content_setContentH_self _ _ _ hlen1
    · rw [hnodeNew]
    · rw [hnodeNew]
  · intro hnla hpn
    rw [preprocessGo]
    rw [hch]
    rw [ppKids]
    rw [hmine]
    dsimp only
    rw [if_pos hnm]
    rw [show searchAncestorGo (f + 1 + 1) H m "LabelAgent" = some none from by
      rw [searchAncestorGo, hpar]
      dsimp only
      rw [if_neg hnla, searchAncestorGo, hpn]]
    dsimp only
    rw [if_neg (by simp)]
    rw [show preprocessGo (f + 1) H m = some H from by
      rw [preprocessGo, hmch]
      rfl]
    rfl

/-- C7 witness: the demotion case on a two-node heap rooted at a
`"LabelAgent"` node, and the keep-inline case on the same shape with a
differently named root. -/
theorem preprocess_demotes_under_sentinel_witness :
    (∃ H', preprocessGo 2
        [⟨"LabelAgent", "", "", [], none, [1]⟩, ⟨"x", "", "v", [], some 0, []⟩]
        0 = some H'
      ∧ (nodeAt H' 1).content = ""
      ∧ (nodeAt H' 1).children = [2]
      ∧ (nodeAt H' 2).content = "v"
      ∧ getNameH H' 2 = ""
      ∧ (nodeAt H' 2).parent = some 1)
  ∧ (preprocessGo 2
      [⟨"other", "", "", [], none, [1]⟩, ⟨"x", "", "v", [], some 0, []⟩] 0 =
    some [⟨"other", "", "", [], none, [1]⟩, ⟨"x", "", "v", [], some 0, []⟩]) :=
  ⟨(preprocess_demotes_under_sentinel _ 0 1 "v" 0 (by decide) (by decide)
      (by decide) (by decide) (by decide) (by decide)).1 (by decide) (by decide),
   (preprocess_demotes_under_sentinel _ 0 1 "v" 0 (by decide) (by decide)
      (by decide) (by decide) (by decide) (by decide)).2 (by decide) (by decide)⟩

/-! ## C6 — Copy: fresh storage, effective content -/

theorem nodeAt_extend (H ext : Heap) (i : Nat) (h : i < H.length) :
    nodeAt (H ++ ext) i = nodeAt H i := by
  unfold nodeAt
  exact List.getD_append H ext default i h

theorem nodeAt_mem (H : Heap) (i : Nat) (h : i < H.length) :
    nodeAt H i ∈ H := by
  unfold nodeAt
  rw [List.getD, List.get?_eq_getElem? , List.getElem?_eq_getElem h]
  exact List.getElem_mem h

theorem toTreeKids_congr (rec1 rec2 : Heap → Nat → Option Node) (H1 H2 : Heap)
    (ids : List Nat) (h : ∀ id ∈ ids, rec1 H1 id = rec2 H2 id) :
    toTreeKids rec1 H1 ids = toTreeKids rec2 H2 ids := by
  induction ids with
  | nil => rfl
  | cons c rest ih =>
    rw [toTreeKids, toTreeKids, h c (by simp)]
    rw [ih (fun id hid => h id (by simp [hid]))]

theorem toTree_append (f : Nat) : ∀ (H ext : Heap) (i : Nat),
    closedHeap H → i < H.length →
    toTree f (H ++ ext) i = toTree f H i := by
  induction f with
  | zero => intro H ext i _ _; rfl
  | succ f ih =>
    intro H ext i hcl hi
    rw [toTree, toTree, nodeAt_extend _ _ _ hi]
    rw [toTreeKids_congr (toTree f) (toTree f) (H ++ ext) H _
      (fun id hid => ih H ext id hcl (hcl (nodeAt H i) (nodeAt_mem H i hi) id hid))]

theorem copyGo_extends : ∀ (f : Nat) (H : Heap) (i : Nat) (H' : Heap) (r : Nat),
    copyGo f H i = some (H', r) →
    (∃ ext, H' = H ++ ext) ∧ H.length ≤ r
      ∧ ∀ j ∈ (nodeAt H' r).children, H.length ≤ j := by
  intro f
  induction f with
  | zero => intro H i H' r hcopy; simp [copyGo] at hcopy
  | succ f ih =>
    have kids : ∀ (ids : List Nat) (H : Heap) (H2 : Heap) (ids' : List Nat),
        copyKids (copyGo f) H ids = some (H2, ids') →
        (∃ ext, H2 = H ++ ext) ∧ ∀ id ∈ ids', H.length ≤ id := by
      intro ids
      induction ids with
      | nil =>
        intro H H2 ids' hck
        rw [copyKids] at hck
        simp at hck
        exact ⟨⟨[], by simp [hck.1]⟩, by simp [hck.2]⟩
      | cons c rest ihk =>
        intro H H2 ids' hck
        rw [copyKids] at hck
        cases hg : copyGo f H c with
        | none => rw [hg] at hck; simp at hck
        | some p =>
          obtain ⟨H1, cId⟩ := p
          rw [hg] at hck
          dsimp only at hck
          cases hk2 : copyKids (copyGo f) H1 rest with
          | none => rw [hk2] at hck; simp at hck
          | some q =>
            obtain ⟨H3, ids3⟩ := q
            rw [hk2] at hck
            dsimp only at hck
            simp only [Option.some.injEq, Prod.mk.injEq] at hck
            obtain ⟨hH2, hids⟩ := hck
            obtain ⟨⟨e1, he1⟩, hc1, _⟩ := ih H c H1 cId hg
            obtain ⟨⟨e2, he2⟩, hall⟩ := ihk H1 H3 ids3 hk2
            subst hH2
            subst hids
            constructor
            · refine ⟨e1 ++ e2, ?_⟩
              rw [he2, he1, List.append_assoc]
            · intro id hid
              rcases List.mem_cons.mp hid with h | h
              · subst h; exact hc1
              · have := hall id h
                rw [he1, List.length_append] at this
                omega
    intro H i H' r hcopy
    rw [copyGo] at hcopy
    cases hk : copyKids (copyGo f) H (nodeAt H i).children with
    | none => rw [hk] at hcopy; simp at hcopy
    | some p =>
      obtain ⟨H1, ids⟩ := p
      rw [hk] at hcopy
      dsimp only at hcopy
      simp only [Option.some.injEq, Prod.mk.injEq] at hcopy
      obtain ⟨hH', hr⟩ := hcopy
      obtain ⟨⟨e2, he2⟩, hids⟩ := kids _ _ _ _ hk
      constructor
      · refine ⟨e2 ++ [if (nodeAt H i).xmlName ≠ "" then
            (⟨"", (nodeAt H i).xmlName, effContent (nodeAt H i).content, [],
              none, ids⟩ : NodeData)
          else ⟨(nodeAt H i).name, "", effContent (nodeAt H i).content, [],
              none, ids⟩], ?_⟩
        rw [← hH', he2, List.append_assoc]
      · constructor
        · rw [← hr, he2, List.length_append]
          omega
        · intro j hj
          rw [← hH', ← hr, nodeAt_append_self] at hj
          have hj' : j ∈ ids := by
            revert hj
            split
            · intro hj; exact hj
            · intro hj; exact hj
          exact hids j hj'

theorem copyKids_extends (f : Nat) : ∀ (ids : List Nat) (H H2 : Heap) (ids' : List Nat),
    copyKids (copyGo f) H ids = some (H2, ids') → ∃ ext, H2 = H ++ ext := by
  intro ids
  induction ids with
  | nil =>
    intro H H2 ids' hck
    rw [copyKids] at hck
    simp at hck
    exact ⟨[], by simp [hck.1]⟩
  | cons c rest ihk =>
    intro H H2 ids' hck
    rw [copyKids] at hck
    cases hg : copyGo f H c with
    | none => rw [hg] at hck; simp at hck
    | some p =>
      obtain ⟨H1, cId⟩ := p
      rw [hg] at hck
      dsimp only at hck
      cases hk2 : copyKids (copyGo f) H1 rest with
      | none => rw [hk2] at hck; simp at hck
      | some q =>
        obtain ⟨H3, ids3⟩ := q
        rw [hk2] at hck
        dsimp only at hck
        simp only [Option.some.injEq, Prod.mk.injEq] at hck
        obtain ⟨hH2, _⟩ := hck
        obtain ⟨⟨e1, he1⟩, _, _⟩ := copyGo_extends f H c H1 cId hg
        obtain ⟨e2, he2⟩ := ihk H1 H3 ids3 hk2
        subst hH2
        exact ⟨e1 ++ e2, by rw [he2, he1, List.append_assoc]⟩

theorem copyGo_correct : ∀ (f : Nat) (H ext H1 : Heap) (i : Nat) (H' : Heap) (r : Nat),
    closedHeap H → i < H.length → H1 = H ++ ext →
    copyGo f H1 i = some (H', r) →
    ∀ ext2, toTree f (H' ++ ext2) r = (toTree f H i).map copySpec := by
  intro f
  induction f with
  | zero => intro H ext H1 i H' r _ _ _ hcopy; simp [copyGo] at hcopy
  | succ f ih =>
    have kids : ∀ (cs : List Nat) (H ext H1 Hk : Heap) (ids : List Nat),
        closedHeap H → (∀ c ∈ cs, c < H.length) → H1 = H ++ ext →
        copyKids (copyGo f) H1 cs = some (Hk, ids) →
        ∀ ext2, toTreeKids (toTree f) (Hk ++ ext2) ids
          = (toTreeKids (toTree f) H cs).map copySpecKids := by
      intro cs
      induction cs with
      | nil =>
        intro H ext H1 Hk ids hcl hlt hH1 hck ext2
        rw [copyKids] at hck
        simp at hck
        obtain ⟨h1, h2⟩ := hck
        subst h2
        rfl
      | cons c rest ihk =>
        intro H ext H1 Hk ids hcl hlt hH1 hck ext2
        rw [copyKids] at hck
        cases hg : copyGo f H1 c with
        | none => rw [hg] at hck; simp at hck
        | some p =>
          obtain ⟨H2, cId⟩ := p
          rw [hg] at hck
          dsimp only at hck
          cases hk2 : copyKids (copyGo f) H2 rest with
          | none => rw [hk2] at hck; simp at hck
          | some q =>
            obtain ⟨H3, ids3⟩ := q
            rw [hk2] at hck
            dsimp only at hck
            simp only [Option.some.injEq, Prod.mk.injEq] at hck
            obtain ⟨hHk, hids⟩ := hck
            subst hHk
            subst hids
            obtain ⟨⟨e1, he1⟩, _, _⟩ := copyGo_extends f H1 c H2 cId hg
            have hchild := ih H ext H1 c H2 cId hcl (hlt c (by simp)) hH1 hg
            have hrest := ihk H (ext ++ e1) H2 H3 ids3 hcl
              (fun x hx => hlt x (by simp [hx]))
              (by rw [he1, hH1, List.append_assoc]) hk2
            obtain ⟨e3, he3⟩ := copyKids_extends f rest H2 H3 ids3 hk2
            rw [toTreeKids, toTreeKids]
            rw [show toTree f (H3 ++ ext2) cId = (toTree f H c).map copySpec from by
              rw [he3, List.append_assoc]
              exact hchild (e3 ++ ext2)]
            rw [hrest ext2]
            cases ht : toTree f H c with
            | none => rfl
            | some t =>
              dsimp only [Option.map]
              cases hts : toTreeKids (toTree f) H rest with
              | none => rfl
              | some ts =>
                dsimp only [Option.map]
                rw [copySpecKids]
    intro H ext H1 i H' r hcl hi hH1 hcopy ext2
    subst hH1
    rw [copyGo] at hcopy
    rw [nodeAt_extend _ _ _ hi] at hcopy
    cases hk : copyKids (copyGo f) (H ++ ext) (nodeAt H i).children with
    | none => rw [hk] at hcopy; simp at hcopy
    | some p =>
      obtain ⟨Hk, ids⟩ := p
      rw [hk] at hcopy
      dsimp only at hcopy
      simp only [Option.some.injEq, Prod.mk.injEq] at hcopy
      obtain ⟨hH', hr⟩ := hcopy
      have hkids := kids (nodeAt H i).children H ext (H ++ ext) Hk ids hcl
        (fun c hc => hcl (nodeAt H i) (nodeAt_mem H i hi) c hc) rfl hk
      rw [toTree, toTree]
      have hnode : nodeAt (H' ++ ext2) r =
          (if (nodeAt H i).xmlName ≠ "" then
            (⟨"", (nodeAt H i).xmlName, effContent (nodeAt H i).content, [],
              none, ids⟩ : NodeData)
          else ⟨(nodeAt H i).name, "", effContent (nodeAt H i).content, [],
              none, ids⟩) := by
        rw [← hH', ← hr]
        rw [nodeAt_extend _ ext2 _ (by rw [List.length_append]; simp)]
        exact nodeAt_append_self Hk _
      rw [hnode]
      have hcht : (if (nodeAt H i).xmlName ≠ "" then (⟨"", (nodeAt H i).xmlName,
            effContent (nodeAt H i).content, [], none, ids⟩ : NodeData)
          else ⟨(nodeAt H i).name, "", effContent (nodeAt H i).content, [], none,
            ids⟩).children = ids := by
        split <;> rfl
      rw [hcht]
      rw [show toTreeKids (toTree f) (H' ++ ext2) ids
          = (toTreeKids (toTree f) H (nodeAt H i).children).map copySpecKids from by
        rw [← hH', List.append_assoc]
        exact hkids _]
      cases hts : toTreeKids (toTree f) H (nodeAt H i).children with
      | none => rfl
      | some ts =>
        dsimp only [Option.map]
        rw [copySpec]
        by_cases hxml : (nodeAt H i).xmlName ≠ ""
        · rw [if_pos hxml, if_pos hxml]
        · rw [if_neg hxml, if_neg hxml]

/-- C6 counterexample: copying a node whose raw content is `"<x>"` yields a
clone whose content is `""` (the effective content), so the copy's content
is NOT identical to the source's. -/
theorem copy_changes_masked_content_cex :
    (copyGo 1 [⟨"t", "", "<x>", [], none, []⟩] 0 =
      some ([⟨"t", "", "<x>", [], none, []⟩, ⟨"t", "", "", [], none, []⟩], 1))
  ∧ ((nodeAt [(⟨"t", "", "<x>", [], none, []⟩ : NodeData)] 0).content = "<x>")
  ∧ ((nodeAt [⟨"t", "", "<x>", [], none, []⟩,
      (⟨"t", "", "", [], none, []⟩ : NodeData)] 1).content = "")
  ∧ ("" ≠ "<x>") := by
  refine ⟨by decide, by decide, by decide, by decide⟩

/-- C6 (amended): `Copy` of a node in a closed heap allocates only fresh
nodes (the clone and its children live at indices at or beyond the old
heap size), the copied tree has the same name and children structure but
carries the EFFECTIVE content of each source node (trimmed, masked on a
leading `<`) and drops attributes (`copySpec`), and mutating any fresh
node — in particular any child of the copy — leaves the source tree
read-back unchanged (no shared storage). -/
theorem copy_fresh_with_effective_content
    (H : Heap) (i f : Nat) (H' : Heap) (r : Nat)
    (hcl : closedHeap H) (hi : i < H.length)
    (hcopy : copyGo f H i = some (H', r)) :
    H.length ≤ r
    ∧ toTree f H' r = (toTree f H i).map copySpec
    ∧ (∀ j ∈ (nodeAt H' r).children, H.length ≤ j)
    ∧ (∀ j s, H.length ≤ j → toTree f (setContentH H' j s) i = toTree f H i) := by
  obtain ⟨⟨ext, hext⟩, hr, hfresh⟩ := copyGo_extends f H i H' r hcopy
  refine ⟨hr, ?_, hfresh, ?_⟩
  · have := copyGo_correct f H [] H i H' r hcl hi (by simp) hcopy []
    simpa using this
  · intro j s hj
    have hset : setContentH H' j s =
        H ++ (ext.set (j - H.length) { nodeAt H' j with content := s }) := by
      unfold setContentH
      rw [hext]
      exact List.set_append_right _ _ hj
    rw [hset]
    exact toTree_append f H _ i hcl hi

/-- C6 witness: the amended statement applied to a concrete two-node heap
whose copy appends two fresh nodes. -/
theorem copy_fresh_with_effective_content_witness :
    closedHeap [⟨"t", "", "<x>", [], none, [1]⟩, ⟨"c", "", " a ", [], some 0, []⟩]
  ∧ (2 ≤ 3
    ∧ toTree 2
        [⟨"t", "", "<x>", [], none, [1]⟩, ⟨"c", "", " a ", [], some 0, []⟩,
         ⟨"c", "", "a", [], none, []⟩, ⟨"t", "", "", [], none, [2]⟩] 3 =
      (toTree 2 [⟨"t", "", "<x>", [], none, [1]⟩,
        ⟨"c", "", " a ", [], some 0, []⟩] 0).map copySpec
    ∧ (∀ j ∈ (nodeAt [⟨"t", "", "<x>", [], none, [1]⟩,
        ⟨"c", "", " a ", [], some 0, []⟩, ⟨"c", "", "a", [], none, []⟩,
        (⟨"t", "", "", [], none, [2]⟩ : NodeData)] 3).children, 2 ≤ j)
    ∧ (∀ j s, 2 ≤ j →
        toTree 2 (setContentH
          [⟨"t", "", "<x>", [], none, [1]⟩, ⟨"c", "", " a ", [], some 0, []⟩,
           ⟨"c", "", "a", [], none, []⟩, ⟨"t", "", "", [], none, [2]⟩] j s) 0 =
        toTree 2 [⟨"t", "", "<x>", [], none, [1]⟩,
          ⟨"c", "", " a ", [], some 0, []⟩] 0)) :=
  ⟨by unfold closedHeap; decide,
   (by
      exact copy_fresh_with_effective_content
        [⟨"t", "", "<x>", [], none, [1]⟩, ⟨"c", "", " a ", [], some 0, []⟩] 0 2
        [⟨"t", "", "<x>", [], none, [1]⟩, ⟨"c", "", " a ", [], some 0, []⟩,
          ⟨"c", "", "a", [], none, []⟩, ⟨"t", "", "", [], none, [2]⟩] 3
        (by unfold closedHeap; decide) (by decide) (by decide))⟩
